import Mathlib

/-!
Verification of the mutation-spectrum comparison core of this repository
(the function plot_mutation_spectrum in notebooks/ms_figs.python.ipynb).

The embedding below follows the notebook code line by line:

* A mutation record exposes a chromosome label and a mutation-type label
  (the only two columns the core reads).
* The two defaultdict(int) accumulators a, b are insertion-ordered
  association lists, as Python dicts are; a missing-key read on a
  defaultdict(int) appends the key with value 0 at the end.
* The significance loop iterates the keys of a, builds the 2x2 table
  [[a_back, a_fore], [b_back, b_fore]] and calls chi2_contingency.
  scipy.stats.chi2_contingency (with its default continuity correction for
  a 2x2 table, i.e. dof = 1) raises ValueError when the internally computed
  table of expected frequencies has a zero element, which for a table with
  a nonzero grand total happens exactly when some row sum times column sum
  is zero; otherwise it applies the Yates adjustment of each observed cell
  towards its expected value (by at most 1/2) and returns the survival
  function of the chi-square distribution with one degree of freedom at the
  resulting statistic.  The survival function itself is transcendental, so
  it is a parameter sf of the embedding; every theorem that needs a fact
  about it states that fact as a hypothesis.
* statsmodels fdrcorrection (Benjamini-Hochberg, default alpha = 0.05) is
  embedded over the rationals exactly as its source computes it: argsort
  the p-values, compare each sorted p-value with alpha * (i+1) / n, set
  every position up to the last rejection to rejected, and scatter the
  flags back to the original order.
* Python string comparison (used by sorted on the dict items) is
  code-point lexicographic; pyLe below implements it directly so that it
  is kernel-computable.
* numpy elementwise division by a zero float silently produces nan (0/0)
  or inf (x/0, x > 0) instead of raising; NpFloat/npdiv model this.
* ax.bar raises a shape-mismatch ValueError when the x positions (taken
  from the length of the first data set) and the heights of the second
  data set have different lengths; renderBars models the bar-pairing step
  with that check.
-/

/-- One DNM record, restricted to the two columns the core reads. -/
structure MutationRecord where
  chrom : String
  mutType : String
deriving DecidableEq, Repr

/-- An insertion-ordered Python dict from mutation-type label to count. -/
abbrev Dict := List (String × Nat)

/-- Plain dict read, returning 0 for a missing key (value view only). -/
def dget : Dict → String → Nat
  | [], _ => 0
  | p :: rest, k => if p.1 == k then p.2 else dget rest k

/-- defaultdict(int) read: a missing key is inserted at the end with
value 0, as Python defaultdict __missing__ does. -/
def dread : Dict → String → Nat × Dict
  | [], k => (0, [(k, 0)])
  | p :: rest, k =>
      if p.1 == k then (p.2, p :: rest)
      else
        let r := dread rest k
        (r.1, p :: r.2)

/-- defaultdict(int) increment d[k] += 1: bump the stored value if the key
is present, otherwise append the key with value 1. -/
def dincr : Dict → String → Dict
  | [], k => [(k, 1)]
  | p :: rest, k =>
      if p.1 == k then (p.1, p.2 + 1) :: rest
      else p :: dincr rest k

/-- sum(d.values()). -/
def dsum (d : Dict) : Nat := (d.map Prod.snd).sum

/-- list(d.keys()), in insertion order. -/
def dkeys (d : Dict) : List String := d.map Prod.fst

/-- The aggregation step of the counting loops: skip the record when its
chromosome is the sentinel X, skip it when it is an indel and indels were
not requested, otherwise count it under its mutation-type label. -/
def aggStepD (indels : Bool) (d : Dict) (r : MutationRecord) : Dict :=
  if r.chrom == "X" then d
  else if !indels && r.mutType == "indel" then d
  else dincr d r.mutType

/-- The Spectrum Aggregator: the counting loop of plot_mutation_spectrum
run over one record sequence. -/
def aggregate (df : List MutationRecord) (indels : Bool) : Dict :=
  df.foldl (aggStepD indels) []

/-- Record-level filtering policy as the specification words it: a record
is retained exactly when its chromosome label is not the sentinel X and it
is not an excluded indel.  Stated from the spec, to be compared with the
skip conditions of the source loop. -/
def keepRecord (indels : Bool) (r : MutationRecord) : Bool :=
  !(r.chrom == "X") && (indels || !(r.mutType == "indel"))

/-- One Yates-corrected cell contribution to the chi-square statistic.
The adjusted observed value moves towards the expected value by at most
1/2 (scipy clips the adjustment at the difference), so the contribution is
(max(|e - o| - 1/2, 0))^2 / e, written with min. -/
def yatesTerm (o e : ℚ) : ℚ := (|e - o| - min (1 / 2) |e - o|) ^ 2 / e

/-- The Yates-corrected chi-square statistic of the 2x2 table
[[aBack, aFore], [bBack, bFore]]. -/
def chi2stat (aBack aFore bBack bFore : Nat) : ℚ :=
  let r1 : ℚ := (aBack : ℚ) + (aFore : ℚ)
  let r2 : ℚ := (bBack : ℚ) + (bFore : ℚ)
  let c1 : ℚ := (aBack : ℚ) + (bBack : ℚ)
  let c2 : ℚ := (aFore : ℚ) + (bFore : ℚ)
  let n : ℚ := r1 + r2
  yatesTerm (aBack : ℚ) (r1 * c1 / n) + yatesTerm (aFore : ℚ) (r1 * c2 / n) +
    yatesTerm (bBack : ℚ) (r2 * c1 / n) + yatesTerm (bFore : ℚ) (r2 * c2 / n)

/-- The message scipy.stats.chi2_contingency raises on a zero expected
frequency. -/
def zeroExpectedMsg : String :=
  "The internally computed table of expected frequencies has a zero element"

/-- Model of scipy.stats.chi2_contingency on the 2x2 table
[[aBack, aFore], [bBack, bFore]], returning only the p-value the notebook
uses.  A zero row-sum/column-sum product means a zero expected frequency
(the grand total is nonzero whenever any margin product is nonzero), which
scipy turns into a ValueError; otherwise the p-value is the chi-square
survival function sf at the Yates-corrected statistic. -/
def chi2_contingency (sf : ℚ → ℚ) (aBack aFore bBack bFore : Nat) :
    Except String ℚ :=
  let r1 := aBack + aFore
  let r2 := bBack + bFore
  let c1 := aBack + bBack
  let c2 := aFore + bFore
  if r1 * c1 = 0 ∨ r1 * c2 = 0 ∨ r2 * c1 = 0 ∨ r2 * c2 = 0 then
    Except.error zeroExpectedMsg
  else
    Except.ok (sf (chi2stat aBack aFore bBack bFore))

/-- The significance loop of plot_mutation_spectrum: for each key of a (in
insertion order) build the 2x2 table against the pooled remainder and test
it.  Reading b[change] on the defaultdict b inserts a missing key with
value 0, so the loop threads b through and returns its final state. -/
def chi2Loop (sf : ℚ → ℚ) (a : Dict) :
    List String → Dict → Except String (List (String × ℚ) × Dict)
  | [], b => Except.ok ([], b)
  | c :: cs, b =>
      let aBack := dsum a - dget a c
      let aFore := dget a c
      let s := dsum b
      let rd := dread b c
      let bFore := rd.1
      let b2 := rd.2
      let bBack := s - bFore
      match chi2_contingency sf aBack aFore bBack bFore with
      | Except.error e => Except.error e
      | Except.ok p =>
          match chi2Loop sf a cs b2 with
          | Except.error e => Except.error e
          | Except.ok (ps, bEnd) => Except.ok ((c, p) :: ps, bEnd)

/-- List enumeration with an explicit start index. -/
def enumIdx : Nat → List α → List (Nat × α)
  | _, [] => []
  | i, x :: xs => (i, x) :: enumIdx (i + 1) xs

/-- Ordering of (original index, p-value) pairs by p-value, as np.argsort
orders the p-values. -/
def idxpLE (p q : Nat × ℚ) : Prop := p.2 ≤ q.2

instance : DecidableRel idxpLE :=
  fun p q => inferInstanceAs (Decidable (p.2 ≤ q.2))

/-- The default FDR level of statsmodels fdrcorrection. -/
def fdr_alpha : ℚ := 5 / 100

/-- Model of statsmodels fdrcorrection (method indep, i.e.
Benjamini-Hochberg), returning the vector of rejection flags in the
original order of the p-values: sort the p-values, compare the i-th sorted
p-value with alpha * (i+1) / n, extend the rejections down to the first
position (reject[:rejectmax] = True in the source), then scatter the flags
back through the argsort indices. -/
def fdrcorrection (alpha : ℚ) (pvals : List ℚ) : List Bool :=
  let n : ℚ := (pvals.length : ℚ)
  let sorted := (enumIdx 0 pvals).insertionSort idxpLE
  let raw := (enumIdx 0 sorted).map
    (fun j => (j.2.1, decide (j.2.2 ≤ alpha * ((j.1 : ℚ) + 1) / n)))
  let filled := (enumIdx 0 raw).map
    (fun j => (j.2.1, (raw.drop j.1).any Prod.snd))
  (List.range pvals.length).map
    (fun k => (((filled.find? (fun e => e.1 == k)).map Prod.snd).getD false))

/-- Python code-point comparison of two character lists, as Python string
comparison orders the items of sorted(d.items()). -/
def strLeB : List Char → List Char → Bool
  | [], _ => true
  | _ :: _, [] => false
  | c :: cs, d :: ds =>
      if c.toNat < d.toNat then true
      else if d.toNat < c.toNat then false
      else strLeB cs ds

/-- Python string less-or-equal. -/
def pyLe (s t : String) : Bool := strLeB s.data t.data

/-- Python string less-or-equal as a proposition on labels. -/
def pyLeP (s t : String) : Prop := pyLe s t = true

instance : DecidableRel pyLeP :=
  fun s t => inferInstanceAs (Decidable (pyLe s t = true))

/-- Ordering of dict items by key, as sorted(d.items()) orders them (keys
are unique, so the tuple comparison never reaches the values). -/
def keyLE (p q : String × Nat) : Prop := pyLeP p.1 q.1

instance : DecidableRel keyLE :=
  fun p q => inferInstanceAs (Decidable (pyLe p.1 q.1 = true))

/-- The dict rebuilt from sorted(d.items()). -/
def sortedDict (d : Dict) : Dict := d.insertionSort keyLE

/-- A numpy float as the chart sees it: a finite value, nan, or inf. -/
inductive NpFloat where
  | val : ℚ → NpFloat
  | nan : NpFloat
  | inf : NpFloat
deriving DecidableEq, Repr

/-- numpy elementwise division: dividing by zero silently yields nan for
0/0 and inf for x/0 with x positive, instead of raising. -/
def npdiv (x y : ℚ) : NpFloat :=
  if y = 0 then (if x = 0 then NpFloat.nan else NpFloat.inf) else NpFloat.val (x / y)

/-- The normalization step paired with its categories: each count of d is
divided by the total of d. -/
def normalizedPairs (d : Dict) : List (String × NpFloat) :=
  d.map (fun p => (p.1, npdiv (p.2 : ℚ) ((dsum d : Nat) : ℚ)))

/-- np.array(list(d.values())) / float(sum(list(d.values()))). -/
def fractions (d : Dict) : List NpFloat := (normalizedPairs d).map Prod.snd

/-- Everything plot_mutation_spectrum computes from the two aggregated
dicts: the reported totals, the per-category unadjusted p-values in loop
order, the corrected significance flags, and the sorted dicts with their
normalized fractions that feed the bar chart. -/
structure SpectrumResult where
  nA : Nat
  nB : Nat
  tests : List (String × ℚ)
  signif : List Bool
  aSorted : Dict
  bSorted : Dict
  aFrac : List NpFloat
  bFrac : List NpFloat
deriving DecidableEq, Repr

/-- The body of plot_mutation_spectrum after the two counting loops:
report totals, run the significance loop over the keys of a, correct with
Benjamini-Hochberg at the default level, sort both dicts uniformly and
convert the counts to fractions. -/
def assembleSpectrum (sf : ℚ → ℚ) (a b : Dict) : Except String SpectrumResult :=
  match chi2Loop sf a (dkeys a) b with
  | Except.error e => Except.error e
  | Except.ok (ps, bEnd) =>
      Except.ok
        { nA := dsum a
          nB := dsum b
          tests := ps
          signif := fdrcorrection fdr_alpha (ps.map Prod.snd)
          aSorted := sortedDict a
          bSorted := sortedDict bEnd
          aFrac := fractions (sortedDict a)
          bFrac := fractions (sortedDict bEnd) }

/-- plot_mutation_spectrum: aggregate both record sequences, then compare
the resulting spectra. -/
def plot_mutation_spectrum (sf : ℚ → ℚ) (df1 df2 : List MutationRecord)
    (indels : Bool) : Except String SpectrumResult :=
  assembleSpectrum sf (aggregate df1 indels) (aggregate df2 indels)

/-- The message matplotlib raises when the bar heights and positions have
different lengths. -/
def shapeMismatchMsg : String :=
  "shape mismatch: objects cannot be broadcast to a single shape"

/-- The bar-pairing step of the rendering: the k-th A bar and the k-th B
bar, each with the category it actually represents.  ax.bar raises a
shape-mismatch error when the positions (one per A fraction) and the B
fractions have different lengths. -/
def renderBars (r : SpectrumResult) :
    Except String (List ((String × NpFloat) × (String × NpFloat))) :=
  if r.bFrac.length = r.aFrac.length then
    Except.ok (List.zip ((dkeys r.aSorted).zip r.aFrac) ((dkeys r.bSorted).zip r.bFrac))
  else Except.error shapeMismatchMsg

/-- The read-only inputs of one invocation. -/
structure Store where
  df1 : List MutationRecord
  df2 : List MutationRecord
deriving DecidableEq, Repr

/-- The aggregation step threaded through the store, so that the frame
property (the loops never write the input frames) is a statement and not a
typing accident. -/
def aggStepSt (indels : Bool) (acc : Dict × Store) (r : MutationRecord) :
    Dict × Store :=
  if r.chrom == "X" then acc
  else if !indels && r.mutType == "indel" then acc
  else (dincr acc.1 r.mutType, acc.2)

/-- One full invocation over a store of inputs: both counting loops read
their rows from the store, and the store is returned alongside the
result. -/
def plotRun (sf : ℚ → ℚ) (indels : Bool) (s : Store) :
    Except String SpectrumResult × Store :=
  let p1 := s.df1.foldl (aggStepSt indels) ([], s)
  let p2 := p1.2.df2.foldl (aggStepSt indels) ([], p1.2)
  (assembleSpectrum sf p1.1 p2.1, p2.2)

theorem dget_dincr (d : Dict) (k m : String) :
    dget (dincr d k) m = if k = m then dget d m + 1 else dget d m := by
  induction d with
  | nil => by_cases h : k = m <;> simp [dincr, dget, h]
  | cons p rest ih =>
      by_cases hpk : p.1 = k
      · by_cases h : k = m <;> simp [dincr, dget, hpk, h]
      · by_cases hpm : p.1 = m
        · have hkm : ¬ k = m := fun h => hpk (h ▸ hpm)
          have hmk : ¬ m = k := fun h => hkm h.symm
          simp [dincr, dget, hpk, hpm, hkm, hmk]
        · simp [dincr, dget, hpk, hpm, ih]

theorem dkeys_dincr_mem (d : Dict) (k : String) (h : k ∈ dkeys d) :
    dkeys (dincr d k) = dkeys d := by
  induction d with
  | nil => simp [dkeys] at h
  | cons p rest ih =>
      by_cases hpk : p.1 = k
      · simp [dincr, dkeys, hpk]
      · have hk : k ∈ dkeys rest := by
          rcases (by simpa [dkeys] using h) with h1 | h1
          · exact absurd h1.symm hpk
          · simpa [dkeys] using h1
        simp [dincr, dkeys, hpk]
        simpa [dkeys] using ih hk

theorem dkeys_dincr_notmem (d : Dict) (k : String) (h : k ∉ dkeys d) :
    dkeys (dincr d k) = dkeys d ++ [k] := by
  induction d with
  | nil => simp [dincr, dkeys]
  | cons p rest ih =>
      have hpk : ¬ p.1 = k := fun he => h (by simp [dkeys, he])
      have hk : k ∉ dkeys rest := fun hm => h (by simp [dkeys]; exact Or.inr (by simpa [dkeys] using hm))
      simp [dincr, dkeys, hpk]
      simpa [dkeys] using ih hk

theorem dsum_dincr (d : Dict) (k : String) : dsum (dincr d k) = dsum d + 1 := by
  induction d with
  | nil => simp [dincr, dsum]
  | cons p rest ih =>
      by_cases hpk : p.1 = k <;> simp [dincr, dsum, hpk] <;>
        simp [dsum] at ih <;> omega

theorem aggStepD_eq_keep (indels : Bool) (d : Dict) (r : MutationRecord) :
    aggStepD indels d r = if keepRecord indels r then dincr d r.mutType else d := by
  by_cases h1 : r.chrom = "X" <;> by_cases h2 : r.mutType = "indel" <;>
    cases indels <;> simp [aggStepD, keepRecord, h1, h2]

theorem foldl_aggStepD_eq_filter (indels : Bool) (l : List MutationRecord) (d : Dict) :
    l.foldl (aggStepD indels) d
      = (l.filter (keepRecord indels)).foldl (fun d r => dincr d r.mutType) d := by
  induction l generalizing d with
  | nil => rfl
  | cons r rest ih =>
      by_cases h : keepRecord indels r = true <;>
        simp [List.filter_cons, h, List.foldl_cons, aggStepD_eq_keep, ih]

theorem dget_foldl_dincr (l : List MutationRecord) (d : Dict) (m : String) :
    dget (l.foldl (fun d r => dincr d r.mutType) d) m
      = dget d m + l.countP (fun r => r.mutType == m) := by
  induction l generalizing d with
  | nil => simp
  | cons r rest ih =>
      by_cases h : r.mutType = m <;>
        simp [List.foldl_cons, ih, dget_dincr, h, List.countP_cons] <;> omega

theorem mem_dkeys_foldl_dincr (l : List MutationRecord) (d : Dict) (m : String) :
    m ∈ dkeys (l.foldl (fun d r => dincr d r.mutType) d)
      ↔ m ∈ dkeys d ∨ m ∈ l.map (fun r => r.mutType) := by
  induction l generalizing d with
  | nil => simp
  | cons r rest ih =>
      rw [List.foldl_cons]
      by_cases h : r.mutType ∈ dkeys d
      · rw [ih, dkeys_dincr_mem _ _ h]
        constructor
        · rintro (h1 | h1)
          · exact Or.inl h1
          · simp [h1]
        · rintro (h1 | h1)
          · exact Or.inl h1
          · rcases (by simpa using h1) with h2 | h2
            · exact Or.inl (h2 ▸ h)
            · exact Or.inr (by simpa using h2)
      · rw [ih, dkeys_dincr_notmem _ _ h]
        simp
        tauto

/-- C1.  For every record sequence and indel policy, the aggregator
excludes a record exactly when its chromosome label equals the sentinel X
or when its mutation-type label is the indel label and indels were
excluded, and maps each remaining label to the count of retained records
with that label; on the concrete scenario with indels excluded it yields
the single-entry mapping T>C to 1. -/
theorem aggregate_counts_retained_records :
    (∀ (df : List MutationRecord) (indels : Bool) (m : String),
        dget (aggregate df indels) m
          = (df.filter (keepRecord indels)).countP (fun r => r.mutType == m)) ∧
    (∀ (df : List MutationRecord) (indels : Bool) (m : String),
        m ∈ dkeys (aggregate df indels)
          ↔ m ∈ (df.filter (keepRecord indels)).map (fun r => r.mutType)) ∧
    (∀ (indels : Bool) (r : MutationRecord),
        keepRecord indels r = false
          ↔ (r.chrom = "X" ∨ (r.mutType = "indel" ∧ indels = false))) ∧
    aggregate [⟨"1", "T>C"⟩, ⟨"X", "T>C"⟩, ⟨"1", "indel"⟩] false = [("T>C", 1)] := by
  refine ⟨?_, ?_, ?_, by decide⟩
  · intro df indels m
    rw [aggregate, foldl_aggStepD_eq_filter, dget_foldl_dincr]
    simp [dget]
  · intro df indels m
    rw [aggregate, foldl_aggStepD_eq_filter, mem_dkeys_foldl_dincr]
    simp [dkeys]
  · intro indels r
    cases indels <;> by_cases h1 : r.chrom = "X" <;> by_cases h2 : r.mutType = "indel" <;>
      simp [keepRecord, h1, h2]

/-- C5.  For every record sequence and fixed indel policy, the
autosome/indel filter is idempotent: filtering the retained records again
changes nothing, and aggregating the retained records gives the same
category-count mapping as aggregating the raw sequence. -/
theorem filter_idempotent :
    (∀ (indels : Bool) (df : List MutationRecord),
        (df.filter (keepRecord indels)).filter (keepRecord indels)
          = df.filter (keepRecord indels)) ∧
    (∀ (indels : Bool) (df : List MutationRecord),
        aggregate (df.filter (keepRecord indels)) indels = aggregate df indels) := by
  constructor
  · intro indels df
    simp [List.filter_filter]
  · intro indels df
    rw [aggregate, aggregate, foldl_aggStepD_eq_filter, foldl_aggStepD_eq_filter,
      List.filter_filter]
    simp

theorem strLeB_total (a b : List Char) : strLeB a b = true ∨ strLeB b a = true := by
  induction a generalizing b with
  | nil => left; rfl
  | cons c cs ih =>
      cases b with
      | nil => right; rfl
      | cons d ds =>
          by_cases h1 : c.toNat < d.toNat
          · left; simp [strLeB, h1]
          · by_cases h2 : d.toNat < c.toNat
            · right; simp [strLeB, h2]
            · rcases ih ds with h | h <;> [left; right] <;> simp [strLeB, h1, h2, h]

theorem strLeB_trans (a b c : List Char) (hab : strLeB a b = true)
    (hbc : strLeB b c = true) : strLeB a c = true := by
  induction a generalizing b c with
  | nil => rfl
  | cons x xs ih =>
      cases b with
      | nil => simp [strLeB] at hab
      | cons y ys =>
          cases c with
          | nil => simp [strLeB] at hbc
          | cons z zs =>
              simp only [strLeB] at hab hbc ⊢
              by_cases hxy : x.toNat < y.toNat
              · by_cases hyz : y.toNat < z.toNat
                · have hxz : x.toNat < z.toNat := by omega
                  simp [hxz]
                · by_cases hzy : z.toNat < y.toNat
                  · simp [hyz, hzy] at hbc
                  · have hxz : x.toNat < z.toNat := by omega
                    simp [hxz]
              · by_cases hyx : y.toNat < x.toNat
                · simp [hxy, hyx] at hab
                · by_cases hyz : y.toNat < z.toNat
                  · have hxz : x.toNat < z.toNat := by omega
                    simp [hxz]
                  · by_cases hzy : z.toNat < y.toNat
                    · simp [hyz, hzy] at hbc
                    · have hxz : ¬ x.toNat < z.toNat := by omega
                      have hzx : ¬ z.toNat < x.toNat := by omega
                      simp [hxy, hyx] at hab
                      simp [hyz, hzy] at hbc
                      simp [hxz, hzx]
                      exact ih ys zs hab hbc

theorem char_toNat_inj (c d : Char) (h : c.toNat = d.toNat) : c = d :=
  Char.ext (UInt32.ext h)

theorem strLeB_antisymm (a b : List Char) (hab : strLeB a b = true)
    (hba : strLeB b a = true) : a = b := by
  induction a generalizing b with
  | nil =>
      cases b with
      | nil => rfl
      | cons y ys => simp [strLeB] at hba
  | cons x xs ih =>
      cases b with
      | nil => simp [strLeB] at hab
      | cons y ys =>
          simp only [strLeB] at hab hba
          by_cases hxy : x.toNat < y.toNat <;> by_cases hyx : y.toNat < x.toNat <;>
            simp [hxy, hyx] at hab hba ⊢
          · omega
          · have hx : x = y := char_toNat_inj _ _ (by omega)
            exact ⟨hx, ih ys hab hba⟩

theorem pyLeP_total (s t : String) : pyLeP s t ∨ pyLeP t s := strLeB_total s.data t.data

theorem pyLeP_trans (s t u : String) (h1 : pyLeP s t) (h2 : pyLeP t u) : pyLeP s u :=
  strLeB_trans s.data t.data u.data h1 h2

theorem pyLeP_antisymm (s t : String) (h1 : pyLeP s t) (h2 : pyLeP t s) : s = t :=
  String.ext (strLeB_antisymm s.data t.data h1 h2)

instance : IsTotal String pyLeP := ⟨pyLeP_total⟩

instance : IsTrans String pyLeP := ⟨fun s t u => pyLeP_trans s t u⟩

instance : IsAntisymm String pyLeP := ⟨fun s t => pyLeP_antisymm s t⟩

instance : IsTotal (String × Nat) keyLE := ⟨fun p q => pyLeP_total p.1 q.1⟩

instance : IsTrans (String × Nat) keyLE := ⟨fun p q r => pyLeP_trans p.1 q.1 r.1⟩

theorem sortedDict_perm (d : Dict) : (sortedDict d).Perm d := List.perm_insertionSort keyLE d

theorem sortedDict_sorted (d : Dict) : (sortedDict d).Sorted keyLE :=
  List.sorted_insertionSort keyLE d

theorem sortedDict_keys_sorted (d : Dict) : (dkeys (sortedDict d)).Pairwise pyLeP :=
  List.Pairwise.map Prod.fst (fun _ _ h => h) (sortedDict_sorted d)

theorem dsum_perm (d e : Dict) (h : d.Perm e) : dsum d = dsum e :=
  (h.map Prod.snd).sum_eq

theorem dkeys_perm (d e : Dict) (h : d.Perm e) : (dkeys d).Perm (dkeys e) :=
  h.map Prod.fst

theorem list_sum_div (l : List ℚ) (c : ℚ) :
    (l.map (fun x => x / c)).sum = l.sum / c := by
  induction l with
  | nil => simp
  | cons x xs ih => simp [ih, add_div]

theorem dincr_pos (d : Dict) (k : String) (h : ∀ p ∈ d, 1 ≤ p.2) :
    ∀ p ∈ dincr d k, 1 ≤ p.2 := by
  induction d with
  | nil => simp [dincr]
  | cons q rest ih =>
      by_cases hqk : q.1 = k
      · intro p hp
        simp [dincr, hqk] at hp
        rcases hp with hp | hp
        · simp [hp]
        · exact h p (by simp [hp])
      · intro p hp
        simp [dincr, hqk] at hp
        rcases hp with hp | hp
        · exact h p (by simp [hp])
        · exact ih (fun q hq => h q (by simp [hq])) p hp

theorem foldl_aggStepD_pos (indels : Bool) (l : List MutationRecord) (d : Dict)
    (h : ∀ p ∈ d, 1 ≤ p.2) : ∀ p ∈ l.foldl (aggStepD indels) d, 1 ≤ p.2 := by
  induction l generalizing d with
  | nil => exact h
  | cons r rest ih =>
      rw [List.foldl_cons, aggStepD_eq_keep]
      by_cases hk : keepRecord indels r = true
      · simp only [hk, if_true]
        exact ih (dincr d r.mutType) (dincr_pos d r.mutType h)
      · rw [if_neg hk]
        exact ih d h

theorem aggregate_pos (df : List MutationRecord) (indels : Bool) :
    ∀ p ∈ aggregate df indels, 1 ≤ p.2 :=
  foldl_aggStepD_pos indels df [] (by simp)

theorem dsum_ne_zero (d : Dict) (hne : d ≠ []) (h : ∀ p ∈ d, 1 ≤ p.2) :
    dsum d ≠ 0 := by
  cases d with
  | nil => exact absurd rfl hne
  | cons p rest =>
      have h1 : 1 ≤ p.2 := h p (by simp)
      simp [dsum]
      omega

theorem fractions_val (d : Dict) (h : dsum d ≠ 0) :
    fractions d = (d.map (fun p => ((p.2 : ℚ) / ((dsum d : Nat) : ℚ)))).map NpFloat.val := by
  have hq : ((dsum d : Nat) : ℚ) ≠ 0 := Nat.cast_ne_zero.mpr h
  simp [fractions, normalizedPairs, npdiv, hq]

theorem fractions_sum (d : Dict) (h : dsum d ≠ 0) :
    (d.map (fun p => ((p.2 : ℚ) / ((dsum d : Nat) : ℚ)))).sum = 1 := by
  have hq : ((dsum d : Nat) : ℚ) ≠ 0 := Nat.cast_ne_zero.mpr h
  have h1 : d.map (fun p => ((p.2 : ℚ) / ((dsum d : Nat) : ℚ)))
      = (d.map (fun p => ((p.2 : Nat) : ℚ))).map (fun x => x / ((dsum d : Nat) : ℚ)) := by
    simp [List.map_map, Function.comp]
  have h2 : (d.map (fun p => ((p.2 : Nat) : ℚ))).sum = ((dsum d : Nat) : ℚ) := by
    rw [dsum]
    rw [Nat.cast_list_sum, List.map_map]
    rfl
  rw [h1, list_sum_div, h2, div_self hq]

/-- C4 (amended).  For every nonempty aggregated category-count mapping
the normalization step produces finite fractions, each count divided by
the total, summing to exactly 1, with the categories in the code-point
lexicographic order of their labels; on the scenario mappings
A = (T>C : 10, T>A : 5) and B = (T>C : 5, T>A : 10) the normalized
fractions in sorted category order (T>A before T>C) are A = [1/3, 2/3]
and B = [2/3, 1/3]. -/
theorem fractions_sum_to_one
    (df : List MutationRecord) (indels : Bool) (h : aggregate df indels ≠ []) :
    (∃ qs : List ℚ,
        fractions (sortedDict (aggregate df indels)) = qs.map NpFloat.val ∧ qs.sum = 1) ∧
    (dkeys (sortedDict (aggregate df indels))).Pairwise pyLeP ∧
    fractions (sortedDict [("T>C", 10), ("T>A", 5)])
      = [NpFloat.val (1 / 3), NpFloat.val (2 / 3)] ∧
    fractions (sortedDict [("T>C", 5), ("T>A", 10)])
      = [NpFloat.val (2 / 3), NpFloat.val (1 / 3)] := by
  refine ⟨?_, sortedDict_keys_sorted _, ?_, ?_⟩
  · set d := sortedDict (aggregate df indels) with hd
    have hperm : d.Perm (aggregate df indels) := sortedDict_perm _
    have hpos : ∀ p ∈ d, 1 ≤ p.2 := fun p hp =>
      aggregate_pos df indels p (hperm.mem_iff.mp hp)
    have hne : d ≠ [] := by
      intro hnil
      apply h
      have hp2 : List.Perm ([] : Dict) (aggregate df indels) := hnil ▸ hperm
      exact hp2.nil_eq.symm
    have hs : dsum d ≠ 0 := dsum_ne_zero d hne hpos
    exact ⟨d.map (fun p => ((p.2 : ℚ) / ((dsum d : Nat) : ℚ))),
      fractions_val d hs, fractions_sum d hs⟩
  · have hsd : sortedDict [("T>C", 10), ("T>A", 5)] = [("T>A", 5), ("T>C", 10)] := by decide
    rw [hsd]
    norm_num [fractions, normalizedPairs, dsum, npdiv]
  · have hsd : sortedDict [("T>C", 5), ("T>A", 10)] = [("T>A", 10), ("T>C", 5)] := by decide
    rw [hsd]
    norm_num [fractions, normalizedPairs, dsum, npdiv]

/-- C4 witness: the theorem applied to a concrete one-record input. -/
theorem fractions_sum_to_one_witness :
    ∃ qs : List ℚ,
      fractions (sortedDict (aggregate [⟨"1", "T>C"⟩] false)) = qs.map NpFloat.val ∧
        qs.sum = 1 :=
  (fractions_sum_to_one [⟨"1", "T>C"⟩] false (by decide)).1

/-- C4 counterexample: the claim states the normalized A fractions for
A = (T>C : 10, T>A : 5) are [0.667, 0.333] in sorted category order, but
the code sorts T>A before T>C, so the first A fraction is 1/3, which is
not within any plotting tolerance of 0.667. -/
theorem fractions_scenario_counterexample :
    fractions (sortedDict [("T>C", 10), ("T>A", 5)])
      = [NpFloat.val (1 / 3), NpFloat.val (2 / 3)] ∧
    ¬ |(1 : ℚ) / 3 - 667 / 1000| ≤ 3 / 10 := by
  constructor
  · have hsd : sortedDict [("T>C", 10), ("T>A", 5)] = [("T>A", 5), ("T>C", 10)] := by decide
    rw [hsd]
    norm_num [fractions, normalizedPairs, dsum, npdiv]
  · rw [abs_of_nonpos (by norm_num)]
    norm_num

theorem dread_fst (d : Dict) (k : String) : (dread d k).1 = dget d k := by
  induction d with
  | nil => rfl
  | cons p rest ih =>
      by_cases h : p.1 = k <;> simp [dread, dget, h, ih]

theorem dread_snd_mem (d : Dict) (k : String) (h : k ∈ dkeys d) : (dread d k).2 = d := by
  induction d with
  | nil => simp [dkeys] at h
  | cons p rest ih =>
      by_cases hpk : p.1 = k
      · simp [dread, hpk]
      · have hk : k ∈ dkeys rest := by
          rcases (by simpa [dkeys] using h) with h1 | h1
          · exact absurd h1.symm hpk
          · simpa [dkeys] using h1
        simp [dread, hpk, ih hk]

theorem dread_snd_notmem (d : Dict) (k : String) (h : k ∉ dkeys d) :
    (dread d k).2 = d ++ [(k, 0)] := by
  induction d with
  | nil => simp [dread]
  | cons p rest ih =>
      have hpk : ¬ p.1 = k := fun he => h (by simp [dkeys, he])
      have hk : k ∉ dkeys rest := fun hm =>
        h (by simp [dkeys]; exact Or.inr (by simpa [dkeys] using hm))
      simp [dread, hpk, ih hk]

theorem dget_append_zero (d : Dict) (k m : String) :
    dget (d ++ [(k, 0)]) m = dget d m := by
  induction d with
  | nil => by_cases h : k = m <;> simp [dget, h]
  | cons p rest ih =>
      by_cases h : p.1 = m <;> simp [dget, h, ih]

theorem dsum_append (d e : Dict) : dsum (d ++ e) = dsum d + dsum e := by
  simp [dsum]

theorem dsum_zeros (e : Dict) (h : ∀ p ∈ e, p.2 = 0) : dsum e = 0 := by
  induction e with
  | nil => rfl
  | cons p rest ih =>
      simp [dsum]
      constructor
      · exact h p (by simp)
      · have := ih (fun q hq => h q (by simp [hq]))
        simpa [dsum] using this

theorem dkeys_append (d e : Dict) : dkeys (d ++ e) = dkeys d ++ dkeys e := by
  simp [dkeys]

theorem dget_le_dsum (d : Dict) (k : String) : dget d k ≤ dsum d := by
  induction d with
  | nil => simp [dget, dsum]
  | cons p rest ih =>
      by_cases h : p.1 = k <;> simp [dget, dsum, h] at ih ⊢ <;> omega

theorem chi2_contingency_ok_val (sf : ℚ → ℚ) (w x y z : Nat) (p : ℚ)
    (h : chi2_contingency sf w x y z = Except.ok p) : p = sf (chi2stat w x y z) := by
  rw [chi2_contingency] at h
  split at h
  · exact absurd h (by simp)
  · simpa using h.symm

theorem chi2_contingency_error_of_zero (sf : ℚ → ℚ) (w x y z : Nat)
    (h : (w + x) * (w + y) = 0 ∨ (w + x) * (x + z) = 0 ∨
         (y + z) * (w + y) = 0 ∨ (y + z) * (x + z) = 0) :
    chi2_contingency sf w x y z = Except.error zeroExpectedMsg := by
  rw [chi2_contingency]
  exact if_pos h

theorem chi2Loop_ok_tests (sf : ℚ → ℚ) (a : Dict) (ks : List String) (b : Dict)
    (ps : List (String × ℚ)) (bEnd : Dict)
    (h : chi2Loop sf a ks b = Except.ok (ps, bEnd)) :
    ps = ks.map (fun c =>
      (c, sf (chi2stat (dsum a - dget a c) (dget a c)
        (dsum b - dget b c) (dget b c)))) := by
  induction ks generalizing b ps bEnd with
  | nil =>
      simp [chi2Loop] at h
      simp [h.1.symm]
  | cons c cs ih =>
      simp only [chi2Loop, dread_fst] at h
      cases hcc : chi2_contingency sf (dsum a - dget a c) (dget a c)
          (dsum b - dget b c) (dget b c) with
      | error e => rw [hcc] at h; simp at h
      | ok p =>
          rw [hcc] at h
          cases hrec : chi2Loop sf a cs (dread b c).2 with
          | error e => rw [hrec] at h; simp at h
          | ok val =>
              obtain ⟨ps2, b2⟩ := val
              rw [hrec] at h
              simp only [Except.ok.injEq, Prod.mk.injEq] at h
              obtain ⟨hps, hbe⟩ := h
              have hval := chi2_contingency_ok_val sf _ _ _ _ _ hcc
              have hmap := ih (dread b c).2 ps2 b2 hrec
              by_cases hc : c ∈ dkeys b
              · rw [dread_snd_mem b c hc] at hmap
                rw [← hps, hval, hmap]
                simp
              · rw [dread_snd_notmem b c hc] at hmap
                rw [← hps, hval, hmap]
                simp only [List.map_cons, List.cons.injEq, true_and]
                apply List.map_congr_left
                intro x _
                simp [dget_append_zero, dsum_append, dsum]

theorem chi2Loop_ok_growth (sf : ℚ → ℚ) (a : Dict) (ks : List String) (b : Dict)
    (ps : List (String × ℚ)) (bEnd : Dict)
    (h : chi2Loop sf a ks b = Except.ok (ps, bEnd)) :
    ∃ extra : Dict, bEnd = b ++ extra ∧
      ∀ p ∈ extra, p.2 = 0 ∧ p.1 ∉ dkeys b ∧ p.1 ∈ ks := by
  induction ks generalizing b ps bEnd with
  | nil =>
      simp [chi2Loop] at h
      exact ⟨[], by simp [h.2], by simp⟩
  | cons c cs ih =>
      simp only [chi2Loop, dread_fst] at h
      cases hcc : chi2_contingency sf (dsum a - dget a c) (dget a c)
          (dsum b - dget b c) (dget b c) with
      | error e => rw [hcc] at h; simp at h
      | ok p =>
          rw [hcc] at h
          cases hrec : chi2Loop sf a cs (dread b c).2 with
          | error e => rw [hrec] at h; simp at h
          | ok val =>
              obtain ⟨ps2, b2⟩ := val
              rw [hrec] at h
              simp only [Except.ok.injEq, Prod.mk.injEq] at h
              obtain ⟨hps, hbe⟩ := h
              subst hbe
              by_cases hc : c ∈ dkeys b
              · rw [dread_snd_mem b c hc] at hrec
                obtain ⟨extra, he1, he2⟩ := ih b ps2 b2 hrec
                exact ⟨extra, he1, fun p hp =>
                  ⟨(he2 p hp).1, (he2 p hp).2.1, by simp [(he2 p hp).2.2]⟩⟩
              · rw [dread_snd_notmem b c hc] at hrec
                obtain ⟨extra, he1, he2⟩ := ih (b ++ [(c, 0)]) ps2 b2 hrec
                refine ⟨(c, 0) :: extra, ?_, ?_⟩
                · rw [he1]
                  simp
                · intro p hp
                  rcases List.mem_cons.mp hp with hp1 | hp1
                  · exact ⟨by simp [hp1], by simp [hp1, hc], by simp [hp1]⟩
                  · have h2 := he2 p hp1
                    refine ⟨h2.1, ?_, by simp [h2.2.2]⟩
                    intro hmem
                    exact h2.2.1 (by rw [dkeys_append]; exact List.mem_append_left _ hmem)

theorem chi2Loop_ok_keys_covered (sf : ℚ → ℚ) (a : Dict) (ks : List String) (b : Dict)
    (ps : List (String × ℚ)) (bEnd : Dict)
    (h : chi2Loop sf a ks b = Except.ok (ps, bEnd)) :
    ∀ k ∈ ks, k ∈ dkeys bEnd := by
  induction ks generalizing b ps bEnd with
  | nil => simp
  | cons c cs ih =>
      simp only [chi2Loop, dread_fst] at h
      cases hcc : chi2_contingency sf (dsum a - dget a c) (dget a c)
          (dsum b - dget b c) (dget b c) with
      | error e => rw [hcc] at h; simp at h
      | ok p =>
          rw [hcc] at h
          cases hrec : chi2Loop sf a cs (dread b c).2 with
          | error e => rw [hrec] at h; simp at h
          | ok val =>
              obtain ⟨ps2, b2⟩ := val
              rw [hrec] at h
              simp only [Except.ok.injEq, Prod.mk.injEq] at h
              obtain ⟨hps, hbe⟩ := h
              subst hbe
              intro k hk
              rcases List.mem_cons.mp hk with hk1 | hk1
              · subst hk1
                have hcmem : k ∈ dkeys (dread b k).2 := by
                  by_cases hc : k ∈ dkeys b
                  · rw [dread_snd_mem b k hc]; exact hc
                  · rw [dread_snd_notmem b k hc, dkeys_append]
                    simp [dkeys]
                obtain ⟨extra, he1, _⟩ := chi2Loop_ok_growth sf a cs _ ps2 b2 hrec
                rw [he1, dkeys_append]
                exact List.mem_append_left _ hcmem
              · exact ih (dread b c).2 ps2 b2 hrec k hk1

theorem chi2Loop_ok_nodup (sf : ℚ → ℚ) (a : Dict) (ks : List String) (b : Dict)
    (ps : List (String × ℚ)) (bEnd : Dict)
    (h : chi2Loop sf a ks b = Except.ok (ps, bEnd)) (hb : (dkeys b).Nodup) :
    (dkeys bEnd).Nodup := by
  induction ks generalizing b ps bEnd with
  | nil =>
      simp [chi2Loop] at h
      exact h.2 ▸ hb
  | cons c cs ih =>
      simp only [chi2Loop, dread_fst] at h
      cases hcc : chi2_contingency sf (dsum a - dget a c) (dget a c)
          (dsum b - dget b c) (dget b c) with
      | error e => rw [hcc] at h; simp at h
      | ok p =>
          rw [hcc] at h
          cases hrec : chi2Loop sf a cs (dread b c).2 with
          | error e => rw [hrec] at h; simp at h
          | ok val =>
              obtain ⟨ps2, b2⟩ := val
              rw [hrec] at h
              simp only [Except.ok.injEq, Prod.mk.injEq] at h
              obtain ⟨hps, hbe⟩ := h
              subst hbe
              by_cases hc : c ∈ dkeys b
              · rw [dread_snd_mem b c hc] at hrec
                exact ih b ps2 b2 hrec hb
              · rw [dread_snd_notmem b c hc] at hrec
                refine ih (b ++ [(c, 0)]) ps2 b2 hrec ?_
                rw [dkeys_append]
                simp [dkeys, List.nodup_append, hb, hc]
                constructor
                · simpa [dkeys] using hb
                · intro x hx
                  exact hc (by simp [dkeys]; exact ⟨x, hx⟩)

theorem chi2Loop_ok_bsum_ne (sf : ℚ → ℚ) (a : Dict) (c : String) (cs : List String)
    (b : Dict) (ps : List (String × ℚ)) (bEnd : Dict)
    (h : chi2Loop sf a (c :: cs) b = Except.ok (ps, bEnd)) : dsum b ≠ 0 := by
  intro hz
  have hfore : dget b c = 0 := Nat.le_antisymm (hz ▸ dget_le_dsum b c) (Nat.zero_le _)
  simp only [chi2Loop, dread_fst] at h
  rw [chi2_contingency_error_of_zero sf _ _ _ _ (by
    right; right; left
    rw [hfore, hz]
    simp)] at h
  simp at h

theorem chi2stat_swap (w x y z : Nat) : chi2stat w x y z = chi2stat x w z y := by
  simp only [chi2stat]
  ring_nf

/-- C2.  For every pair of category-count mappings, a significance step
that completes tests exactly the category keys present in the first
mapping A, in their order (a category present only in B is skipped), and
for each such category the unadjusted p-value is the chi-square p-value
of the 2x2 table whose rows are the two sets and whose cells are the
category's own count and the pooled remainder; the statistic is invariant
under swapping the two columns, so reading the table with the own-count
column first is equivalent. -/
theorem chi2_tests_reference_keys
    (sf : ℚ → ℚ) (a b : Dict) (ps : List (String × ℚ)) (bEnd : Dict)
    (h : chi2Loop sf a (dkeys a) b = Except.ok (ps, bEnd)) :
    ps = (dkeys a).map (fun c =>
      (c, sf (chi2stat (dsum a - dget a c) (dget a c)
        (dsum b - dget b c) (dget b c)))) ∧
    ps.map Prod.fst = dkeys a ∧
    ∀ w x y z : Nat, chi2stat w x y z = chi2stat x w z y := by
  have h1 := chi2Loop_ok_tests sf a (dkeys a) b ps bEnd h
  refine ⟨h1, ?_, fun w x y z => chi2stat_swap w x y z⟩
  rw [h1, List.map_map]
  show List.map (fun c => c) (dkeys a) = dkeys a
  simp

/-- C2 witness: the loop evaluated on a concrete pair of mappings. -/
theorem chi2_tests_reference_keys_witness :
    ([(("T>C" : String), (1 : ℚ)), ("T>A", 1)].map Prod.fst)
      = dkeys [("T>C", 1), ("T>A", 1)] :=
  (chi2_tests_reference_keys (fun _ => 1) [("T>C", 1), ("T>A", 1)]
    [("T>C", 1), ("C>G", 1)] [("T>C", 1), ("T>A", 1)]
    [("T>C", 1), ("C>G", 1), ("T>A", 0)] rfl).2.1

/-- C10.  The significance loop has a side effect on mapping B: reading
the count of a category of A that is absent from B inserts a zero-count
entry into B, so after a completed loop the key set of B is a superset of
the key set of A, and each such inserted entry appears as a zero-count
category, with fraction zero, in B's sorted normalized output. -/
theorem signif_loop_inserts_zeros
    (sf : ℚ → ℚ) (a b : Dict) (ps : List (String × ℚ)) (bEnd : Dict)
    (h : chi2Loop sf a (dkeys a) b = Except.ok (ps, bEnd)) :
    (∀ k ∈ dkeys a, k ∈ dkeys bEnd) ∧
    (∀ k ∈ dkeys a, k ∉ dkeys b → (k, 0) ∈ bEnd ∧
        (k, NpFloat.val 0) ∈ normalizedPairs (sortedDict bEnd)) := by
  refine ⟨chi2Loop_ok_keys_covered sf a (dkeys a) b ps bEnd h, ?_⟩
  intro k hk hnb
  obtain ⟨extra, he1, he2⟩ := chi2Loop_ok_growth sf a (dkeys a) b ps bEnd h
  have hkend : k ∈ dkeys bEnd := chi2Loop_ok_keys_covered sf a (dkeys a) b ps bEnd h k hk
  have hkextra : k ∈ dkeys extra := by
    rw [he1, dkeys_append] at hkend
    rcases List.mem_append.mp hkend with h1 | h1
    · exact absurd h1 hnb
    · exact h1
  obtain ⟨p, hp, hpk⟩ := List.mem_map.mp hkextra
  have hp0 : p.2 = 0 := (he2 p hp).1
  have hmem : (k, 0) ∈ bEnd := by
    rw [he1]
    refine List.mem_append_right _ ?_
    have : p = (k, 0) := by
      obtain ⟨p1, p2⟩ := p
      simp at hpk hp0
      rw [hpk, hp0]
    exact this ▸ hp
  refine ⟨hmem, ?_⟩
  have hmem2 : (k, 0) ∈ sortedDict bEnd := (sortedDict_perm bEnd).mem_iff.mpr hmem
  have hane : dkeys a ≠ [] := fun hnil => by simp [hnil] at hk
  have hbne : dsum b ≠ 0 := by
    cases hka : dkeys a with
    | nil => exact absurd hka hane
    | cons c cs =>
        rw [hka] at h
        exact chi2Loop_ok_bsum_ne sf a c cs b ps bEnd h
  have hsum : dsum (sortedDict bEnd) = dsum b := by
    rw [dsum_perm _ _ (sortedDict_perm bEnd), he1, dsum_append,
      dsum_zeros extra (fun p hp => (he2 p hp).1)]
    simp
  have ht : ((dsum (sortedDict bEnd) : Nat) : ℚ) ≠ 0 := by
    rw [hsum]
    exact Nat.cast_ne_zero.mpr hbne
  refine List.mem_map.mpr ⟨(k, 0), hmem2, ?_⟩
  simp [npdiv, ht]

/-- C10 witness: a concrete loop run that inserts the key T>A into B. -/
theorem signif_loop_inserts_zeros_witness :
    (("T>A" : String), (0 : Nat)) ∈ ([("T>C", 1), ("C>G", 1), ("T>A", 0)] : Dict) ∧
    (("T>A" : String), NpFloat.val 0)
      ∈ normalizedPairs (sortedDict [("T>C", 1), ("C>G", 1), ("T>A", 0)]) :=
  (signif_loop_inserts_zeros (fun _ => 1) [("T>C", 1), ("T>A", 1)]
    [("T>C", 1), ("C>G", 1)] [("T>C", 1), ("T>A", 1)]
    [("T>C", 1), ("C>G", 1), ("T>A", 0)] rfl).2 "T>A" (by decide) (by decide)

/-- C3 counterexample: with both record sequences empty, both filtered
sets are empty (zero totals), yet the routine completes without raising
anything: the normalization step does not fail with a division error. -/
theorem zero_total_no_failure_counterexample :
    plot_mutation_spectrum (fun _ => 1) [] [] false
      = Except.ok ⟨0, 0, [], [], [], [], [], []⟩ := rfl

/-- C3 (amended).  The code has no zero-total guard in normalization:
with both filtered sets empty the call completes with empty fraction
lists (and hence no NaN or Infinity values reach the chart); with a
nonempty filtered set A and an empty filtered set B, the significance
step raises the scipy zero-expected-frequency error before normalization
runs, so only callers supplying nonempty inputs reach the fractions. -/
theorem zero_total_behavior
    (sf : ℚ → ℚ) (df1 df2 : List MutationRecord) (indels : Bool)
    (h1 : aggregate df1 indels ≠ []) (h2 : aggregate df2 indels = []) :
    (∀ (sg : ℚ → ℚ) (ind : Bool), plot_mutation_spectrum sg [] [] ind
        = Except.ok ⟨0, 0, [], [], [], [], [], []⟩) ∧
    plot_mutation_spectrum sf df1 df2 indels = Except.error zeroExpectedMsg := by
  constructor
  · intro sg ind
    rfl
  · have hks : ∃ c cs, dkeys (aggregate df1 indels) = c :: cs := by
      cases hA : aggregate df1 indels with
      | nil => exact absurd hA h1
      | cons p rest => exact ⟨p.1, dkeys rest, by simp [dkeys, hA]⟩
    obtain ⟨c, cs, hks⟩ := hks
    have hloop : chi2Loop sf (aggregate df1 indels) (dkeys (aggregate df1 indels)) []
        = Except.error zeroExpectedMsg := by
      rw [hks]
      simp only [chi2Loop, dread_fst]
      rw [chi2_contingency_error_of_zero sf _ _ _ _ (by
        right; right; left
        simp [dget, dsum])]
    rw [plot_mutation_spectrum, h2, assembleSpectrum, hloop]

/-- C3 witness: a concrete nonempty A with empty B raises the
zero-expected-frequency error. -/
theorem zero_total_behavior_witness :
    plot_mutation_spectrum (fun _ => 1) [⟨"1", "T>C"⟩] [] false
      = Except.error zeroExpectedMsg :=
  (zero_total_behavior (fun _ => 1) [⟨"1", "T>C"⟩] [] false (by decide) (by decide)).2

/-- C7.  The multiple-testing step applies the Benjamini-Hochberg FDR
procedure to the full vector of unadjusted p-values in the order they
were computed, at the explicit named default level fdr_alpha = 5/100 of
the correction routine (its alpha parameter makes the level overridable);
on the reference vector [0.001, 0.2, 0.5, 0.8] at that level only the
smallest p-value is flagged significant. -/
theorem fdr_default_level_and_reference :
    (∀ (sf : ℚ → ℚ) (df1 df2 : List MutationRecord) (indels : Bool),
        (plot_mutation_spectrum sf df1 df2 indels).map (fun r => r.signif)
          = (plot_mutation_spectrum sf df1 df2 indels).map
              (fun r => fdrcorrection fdr_alpha (r.tests.map Prod.snd))) ∧
    fdr_alpha = 5 / 100 ∧
    fdrcorrection fdr_alpha [1 / 1000, 2 / 10, 5 / 10, 8 / 10]
      = [true, false, false, false] := by
  refine ⟨?_, rfl, ?_⟩
  · intro sf df1 df2 indels
    cases hx : chi2Loop sf (aggregate df1 indels) (dkeys (aggregate df1 indels))
        (aggregate df2 indels) with
    | error e =>
        simp only [plot_mutation_spectrum, assembleSpectrum, hx]
        rfl
    | ok val =>
        obtain ⟨ps, bEnd⟩ := val
        simp only [plot_mutation_spectrum, assembleSpectrum, hx]
        rfl
  · norm_num [fdrcorrection, fdr_alpha, enumIdx, List.insertionSort,
      List.orderedInsert, idxpLE, List.range_succ]

theorem enumIdx_length (s : Nat) (l : List α) : (enumIdx s l).length = l.length := by
  induction l generalizing s with
  | nil => rfl
  | cons x xs ih => simp [enumIdx, ih]

theorem mem_enumIdx (s : Nat) (l : List α) (x : Nat × α) (h : x ∈ enumIdx s l) :
    s ≤ x.1 ∧ x.1 < s + l.length ∧ x.2 ∈ l := by
  induction l generalizing s with
  | nil => simp [enumIdx] at h
  | cons y ys ih =>
      rcases List.mem_cons.mp h with h1 | h1
      · subst h1
        simp
      · obtain ⟨ha, hb, hc⟩ := ih (s + 1) h1
        exact ⟨by omega, by simp; omega, by simp [hc]⟩

theorem fdrcorrection_none (alpha : ℚ) (ps : List ℚ) (halpha : 0 ≤ alpha)
    (hall : ∀ p ∈ ps, alpha < p) :
    ∀ s ∈ fdrcorrection alpha ps, s = false := by
  intro s hs
  have hraw : ∀ x ∈ ((enumIdx 0 ((enumIdx 0 ps).insertionSort idxpLE)).map
      (fun j => (j.2.1, decide (j.2.2 ≤ alpha * ((j.1 : ℚ) + 1) / ((ps.length : Nat) : ℚ))))),
      x.2 = false := by
    intro x hx
    obtain ⟨j, hj, hjx⟩ := List.mem_map.mp hx
    obtain ⟨_, hjlt, hjmem⟩ := mem_enumIdx 0 _ j hj
    have hjp : j.2 ∈ enumIdx 0 ps :=
      (List.perm_insertionSort idxpLE (enumIdx 0 ps)).subset hjmem
    have hpmem : j.2.2 ∈ ps := (mem_enumIdx 0 ps j.2 hjp).2.2
    have hlt : alpha < j.2.2 := hall _ hpmem
    have hn : 0 < ps.length := List.length_pos.mpr (by
      intro hnil
      rw [hnil] at hpmem
      simp at hpmem)
    have hj1 : j.1 + 1 ≤ ps.length := by
      have := hjlt
      rw [List.length_insertionSort, enumIdx_length] at this
      omega
    have hle : alpha * ((j.1 : ℚ) + 1) / ((ps.length : Nat) : ℚ) ≤ alpha := by
      rw [div_le_iff₀ (by exact_mod_cast hn)]
      have h1 : ((j.1 : ℚ) + 1) ≤ ((ps.length : Nat) : ℚ) := by exact_mod_cast hj1
      nlinarith
    have : ¬ (j.2.2 ≤ alpha * ((j.1 : ℚ) + 1) / ((ps.length : Nat) : ℚ)) := by
      intro hcon
      linarith
    rw [← hjx]
    simp [this]
  rw [fdrcorrection] at hs
  obtain ⟨k, _, hks⟩ := List.mem_map.mp hs
  rw [← hks]
  cases hf : (((enumIdx 0 ((enumIdx 0 ((enumIdx 0 ps).insertionSort idxpLE)).map
      (fun j => (j.2.1, decide (j.2.2 ≤ alpha * ((j.1 : ℚ) + 1) / ((ps.length : Nat) : ℚ)))))).map
      (fun j => (j.2.1, (((enumIdx 0 ((enumIdx 0 ps).insertionSort idxpLE)).map
        (fun j => (j.2.1, decide (j.2.2 ≤ alpha * ((j.1 : ℚ) + 1) / ((ps.length : Nat) : ℚ))))).drop j.1).any
          Prod.snd))).find? (fun e => e.1 == k)) with
  | none => simp [hf]
  | some e =>
      have hemem := List.mem_of_find?_eq_some hf
      obtain ⟨j, hj, hje⟩ := List.mem_map.mp hemem
      have hany : ((((enumIdx 0 ((enumIdx 0 ps).insertionSort idxpLE)).map
          (fun j => (j.2.1, decide (j.2.2 ≤ alpha * ((j.1 : ℚ) + 1) / ((ps.length : Nat) : ℚ))))).drop j.1).any
            Prod.snd) = false := by
        rw [List.any_eq_false]
        intro x hx
        have hx2 := hraw x (List.drop_subset _ _ hx)
        simp [hx2]
      simp [hf, ← hje, hany]

theorem yatesTerm_self (o : ℚ) : yatesTerm o o = 0 := by
  norm_num [yatesTerm]

theorem chi2stat_diag (x y : Nat) : chi2stat x y x y = 0 := by
  simp only [chi2stat]
  by_cases h : (x : ℚ) + (y : ℚ) = 0
  · have hxy : x = 0 ∧ y = 0 := by
      have h0 : ((x + y : Nat) : ℚ) = 0 := by push_cast; linarith
      have h2 : x + y = 0 := Nat.cast_eq_zero.mp h0
      omega
    rw [hxy.1, hxy.2]
    norm_num [yatesTerm]
  · have he1 : ((x : ℚ) + y) * ((x : ℚ) + x) / (((x : ℚ) + y) + ((x : ℚ) + y)) = x := by
      field_simp
      ring
    have he2 : ((x : ℚ) + y) * ((y : ℚ) + y) / (((x : ℚ) + y) + ((x : ℚ) + y)) = y := by
      field_simp
      ring
    rw [he1, he2]
    simp [yatesTerm_self]

/-- C6.  When the two record sequences are identical (so the two
aggregated category-count mappings coincide), every per-category table
has its observed cells equal to its expected cells, so every chi-square
statistic is zero: with the chi-square survival function taking the value
1 at 0, every unadjusted p-value of a completed run equals 1 and no
category is flagged significant by the Benjamini-Hochberg step. -/
theorem identical_inputs_no_significance
    (sf : ℚ → ℚ) (df : List MutationRecord) (indels : Bool) (r : SpectrumResult)
    (hsf : sf 0 = 1) (h : plot_mutation_spectrum sf df df indels = Except.ok r) :
    (∀ t ∈ r.tests, t.2 = 1) ∧ (∀ s ∈ r.signif, s = false) := by
  rw [plot_mutation_spectrum] at h
  cases hx : chi2Loop sf (aggregate df indels) (dkeys (aggregate df indels))
      (aggregate df indels) with
  | error e =>
      rw [assembleSpectrum, hx] at h
      simp at h
  | ok val =>
      obtain ⟨ps, bEnd⟩ := val
      rw [assembleSpectrum, hx] at h
      simp only [Except.ok.injEq] at h
      have hps := chi2Loop_ok_tests sf (aggregate df indels) (dkeys (aggregate df indels))
        (aggregate df indels) ps bEnd hx
      have hone : ∀ t ∈ ps, t.2 = 1 := by
        intro t ht
        rw [hps] at ht
        obtain ⟨c, _, hc⟩ := List.mem_map.mp ht
        rw [← hc]
        simp [chi2stat_diag, hsf]
      constructor
      · intro t ht
        rw [← h] at ht
        exact hone t ht
      · intro s hs
        rw [← h] at hs
        simp only at hs
        refine fdrcorrection_none fdr_alpha (ps.map Prod.snd) (by norm_num [fdr_alpha])
          ?_ s hs
        intro p hp
        obtain ⟨t, ht, htp⟩ := List.mem_map.mp hp
        rw [← htp, hone t ht]
        norm_num [fdr_alpha]

/-- C6 witness: a concrete identical pair of two-category inputs, with a
survival function that is 1 at 0. -/
theorem identical_inputs_no_significance_witness :
    (∀ t ∈ [(("T>C" : String), (1 : ℚ)), ("T>A", 1)], Prod.snd t = 1) ∧
    (∀ s ∈ [false, false], s = false) := by
  have hagg : aggregate [⟨"1", "T>C"⟩, ⟨"1", "T>A"⟩] false = [("T>C", 1), ("T>A", 1)] := by
    decide
  have hloop : chi2Loop (fun _ => (1 : ℚ)) [("T>C", 1), ("T>A", 1)] ["T>C", "T>A"]
      [("T>C", 1), ("T>A", 1)]
      = Except.ok ([(("T>C" : String), (1 : ℚ)), ("T>A", 1)], [("T>C", 1), ("T>A", 1)]) := rfl
  have hsort : sortedDict [("T>C", 1), ("T>A", 1)] = [("T>A", 1), ("T>C", 1)] := by decide
  have hfdr : fdrcorrection fdr_alpha [(1 : ℚ), 1] = [false, false] := by
    norm_num [fdrcorrection, fdr_alpha, enumIdx, List.insertionSort, List.orderedInsert,
      idxpLE, List.range_succ]
  have hfrac : fractions [("T>A", 1), ("T>C", 1)]
      = [NpFloat.val (1 / 2), NpFloat.val (1 / 2)] := by
    norm_num [fractions, normalizedPairs, dsum, npdiv]
  have hrun : plot_mutation_spectrum (fun _ => (1 : ℚ)) [⟨"1", "T>C"⟩, ⟨"1", "T>A"⟩]
      [⟨"1", "T>C"⟩, ⟨"1", "T>A"⟩] false
      = Except.ok
          { nA := 2, nB := 2,
            tests := [(("T>C" : String), (1 : ℚ)), ("T>A", 1)],
            signif := [false, false],
            aSorted := [("T>A", 1), ("T>C", 1)],
            bSorted := [("T>A", 1), ("T>C", 1)],
            aFrac := [NpFloat.val (1 / 2), NpFloat.val (1 / 2)],
            bFrac := [NpFloat.val (1 / 2), NpFloat.val (1 / 2)] } := by
    rw [plot_mutation_spectrum, hagg, assembleSpectrum]
    rw [show dkeys [(("T>C" : String), (1 : Nat)), ("T>A", 1)] = ["T>C", "T>A"] from rfl]
    simp only [hloop, hsort, hfrac]
    rw [show List.map Prod.snd [(("T>C" : String), (1 : ℚ)), ("T>A", 1)] = [(1 : ℚ), 1] from rfl]
    rw [hfdr]
    rfl
  exact identical_inputs_no_significance (fun _ => (1 : ℚ)) [⟨"1", "T>C"⟩, ⟨"1", "T>A"⟩]
    false _ rfl hrun

theorem aggregate_keys_nodup (df : List MutationRecord) (indels : Bool) :
    (dkeys (aggregate df indels)).Nodup := by
  suffices h : ∀ (l : List MutationRecord) (d : Dict), (dkeys d).Nodup →
      (dkeys (l.foldl (aggStepD indels) d)).Nodup by
    exact h df [] (by simp [dkeys])
  intro l
  induction l with
  | nil => exact fun d hd => hd
  | cons r rest ih =>
      intro d hd
      rw [List.foldl_cons, aggStepD_eq_keep]
      by_cases hk : keepRecord indels r = true
      · rw [if_pos hk]
        apply ih
        by_cases hm : r.mutType ∈ dkeys d
        · rw [dkeys_dincr_mem _ _ hm]
          exact hd
        · rw [dkeys_dincr_notmem _ _ hm]
          simp [List.nodup_append, hd, hm]
      · rw [if_neg hk]
        exact ih d hd

theorem fractions_length (d : Dict) : (fractions d).length = d.length := by
  simp [fractions, normalizedPairs]

theorem sortedDict_length (d : Dict) : (sortedDict d).length = d.length :=
  (sortedDict_perm d).length_eq

theorem dkeys_length (d : Dict) : (dkeys d).length = d.length := by
  simp [dkeys]

theorem zip_zip_fst (k : List String) (f g : List NpFloat)
    (pr : (String × NpFloat) × (String × NpFloat))
    (h : pr ∈ List.zip (k.zip f) (k.zip g)) : pr.1.1 = pr.2.1 := by
  induction k generalizing f g with
  | nil => simp at h
  | cons c cs ih =>
      cases f with
      | nil => simp at h
      | cons x xs =>
          cases g with
          | nil => simp at h
          | cons y ys =>
              rcases List.mem_cons.mp h with h1 | h1
              · simp [h1]
              · exact ih xs ys h1

/-- C8 (amended).  Both category-count mappings are sorted by the same
code-point lexicographic key order before the bars are laid out; whenever
the bar-pairing step succeeds (matplotlib accepts the B heights only when
they are as many as the A positions), the two sorted key lists are equal,
so the k-th A bar and the k-th B bar refer to the same category; when B
retains a category absent from A the key lists differ in length and the
bar call fails with a shape mismatch instead of rendering misaligned
bars. -/
theorem bars_align_when_render_succeeds
    (sf : ℚ → ℚ) (df1 df2 : List MutationRecord) (indels : Bool)
    (r : SpectrumResult) (pairs : List ((String × NpFloat) × (String × NpFloat)))
    (h : plot_mutation_spectrum sf df1 df2 indels = Except.ok r)
    (hr : renderBars r = Except.ok pairs) :
    (dkeys r.aSorted).Pairwise pyLeP ∧ (dkeys r.bSorted).Pairwise pyLeP ∧
    dkeys r.aSorted = dkeys r.bSorted ∧
    ∀ pr ∈ pairs, pr.1.1 = pr.2.1 := by
  rw [plot_mutation_spectrum] at h
  cases hx : chi2Loop sf (aggregate df1 indels) (dkeys (aggregate df1 indels))
      (aggregate df2 indels) with
  | error e =>
      rw [assembleSpectrum, hx] at h
      simp at h
  | ok val =>
      obtain ⟨ps, bEnd⟩ := val
      rw [assembleSpectrum, hx] at h
      simp only [Except.ok.injEq] at h
      have hA : r.aSorted = sortedDict (aggregate df1 indels) := by rw [← h]
      have hB : r.bSorted = sortedDict bEnd := by rw [← h]
      have hAF : r.aFrac = fractions (sortedDict (aggregate df1 indels)) := by rw [← h]
      have hBF : r.bFrac = fractions (sortedDict bEnd) := by rw [← h]
      have hlen : r.bFrac.length = r.aFrac.length := by
        rw [renderBars] at hr
        by_cases hc : r.bFrac.length = r.aFrac.length
        · exact hc
        · rw [if_neg hc] at hr
          simp at hr
      have hlen2 : bEnd.length = (aggregate df1 indels).length := by
        rw [hAF, hBF, fractions_length, fractions_length, sortedDict_length,
          sortedDict_length] at hlen
        exact hlen
      have hsub : dkeys (aggregate df1 indels) ⊆ dkeys bEnd := fun k hk =>
        chi2Loop_ok_keys_covered sf (aggregate df1 indels) _ _ ps bEnd hx k hk
      have hnda : (dkeys (aggregate df1 indels)).Nodup := aggregate_keys_nodup df1 indels
      have hndb : (dkeys bEnd).Nodup :=
        chi2Loop_ok_nodup sf (aggregate df1 indels) _ _ ps bEnd hx
          (aggregate_keys_nodup df2 indels)
      have hperm : (dkeys (aggregate df1 indels)).Perm (dkeys bEnd) :=
        (hnda.subperm hsub).perm_of_length_le
          (by rw [dkeys_length, dkeys_length, hlen2])
      have hpermS : (dkeys r.aSorted).Perm (dkeys r.bSorted) := by
        rw [hA, hB]
        exact ((dkeys_perm _ _ (sortedDict_perm _)).trans hperm).trans
          (dkeys_perm _ _ (sortedDict_perm _)).symm
      have hkeq : dkeys r.aSorted = dkeys r.bSorted := by
        have s1 : (dkeys r.aSorted).Sorted pyLeP := by
          rw [hA]
          exact sortedDict_keys_sorted _
        have s2 : (dkeys r.bSorted).Sorted pyLeP := by
          rw [hB]
          exact sortedDict_keys_sorted _
        exact @List.eq_of_perm_of_sorted String pyLeP _ _ _ hpermS s1 s2
      refine ⟨by rw [hA]; exact sortedDict_keys_sorted _,
        by rw [hB]; exact sortedDict_keys_sorted _, hkeq, ?_⟩
      intro pr hpr
      have hpairs : pairs = List.zip ((dkeys r.aSorted).zip r.aFrac)
          ((dkeys r.bSorted).zip r.bFrac) := by
        rw [renderBars, if_pos hlen] at hr
        simpa using hr.symm
      rw [hpairs, ← hkeq] at hpr
      exact zip_zip_fst (dkeys r.aSorted) r.aFrac r.bFrac pr hpr

/-- C8 counterexample: when B retains a category (T>A) absent from A, the
claim that the k-th bars always refer to the same category fails: the
first A bar is T>C while the first B bar is T>A, and the bar call itself
fails with a shape mismatch. -/
theorem bars_alignment_counterexample :
    plot_mutation_spectrum (fun _ => 1) [⟨"1", "T>C"⟩] [⟨"1", "T>A"⟩, ⟨"1", "T>C"⟩] false
      = Except.ok
          { nA := 1, nB := 2, tests := [("T>C", 1)], signif := [false],
            aSorted := [("T>C", 1)], bSorted := [("T>A", 1), ("T>C", 1)],
            aFrac := [NpFloat.val 1],
            bFrac := [NpFloat.val (1 / 2), NpFloat.val (1 / 2)] } ∧
    (dkeys [(("T>C" : String), (1 : Nat))]).head?
      ≠ (dkeys [("T>A", 1), ("T>C", 1)]).head? ∧
    renderBars
        { nA := 1, nB := 2, tests := [("T>C", 1)], signif := [false],
          aSorted := [("T>C", 1)], bSorted := [("T>A", 1), ("T>C", 1)],
          aFrac := [NpFloat.val 1],
          bFrac := [NpFloat.val (1 / 2), NpFloat.val (1 / 2)] }
      = Except.error shapeMismatchMsg := by
  refine ⟨?_, by decide, rfl⟩
  have hagg1 : aggregate [⟨"1", "T>C"⟩] false = [("T>C", 1)] := by decide
  have hagg2 : aggregate [⟨"1", "T>A"⟩, ⟨"1", "T>C"⟩] false
      = [("T>A", 1), ("T>C", 1)] := by decide
  have hloop : chi2Loop (fun _ => (1 : ℚ)) [("T>C", 1)] ["T>C"] [("T>A", 1), ("T>C", 1)]
      = Except.ok ([(("T>C" : String), (1 : ℚ))], [("T>A", 1), ("T>C", 1)]) := rfl
  have hsort : sortedDict [("T>A", 1), ("T>C", 1)] = [("T>A", 1), ("T>C", 1)] := by decide
  have hsortA : sortedDict [("T>C", 1)] = [("T>C", 1)] := by decide
  have hfdr : fdrcorrection fdr_alpha [(1 : ℚ)] = [false] := by
    norm_num [fdrcorrection, fdr_alpha, enumIdx, List.insertionSort, List.orderedInsert,
      idxpLE, List.range_succ]
  have hfracA : fractions [(("T>C" : String), (1 : Nat))] = [NpFloat.val 1] := by
    norm_num [fractions, normalizedPairs, dsum, npdiv]
  have hfracB : fractions [(("T>A" : String), (1 : Nat)), ("T>C", 1)]
      = [NpFloat.val (1 / 2), NpFloat.val (1 / 2)] := by
    norm_num [fractions, normalizedPairs, dsum, npdiv]
  rw [plot_mutation_spectrum, hagg1, hagg2, assembleSpectrum]
  rw [show dkeys [(("T>C" : String), (1 : Nat))] = ["T>C"] from rfl]
  simp only [hloop, hsort, hsortA, hfracA, hfracB]
  rw [show List.map Prod.snd [(("T>C" : String), (1 : ℚ))] = [(1 : ℚ)] from rfl]
  rw [hfdr]
  rfl

/-- C8 witness: a successful aligned rendering on identical two-category
inputs. -/
theorem bars_align_when_render_succeeds_witness :
    (dkeys [(("T>A" : String), (1 : Nat)), ("T>C", 1)]).Pairwise pyLeP ∧
    (dkeys [(("T>A" : String), (1 : Nat)), ("T>C", 1)]).Pairwise pyLeP ∧
    dkeys [(("T>A" : String), (1 : Nat)), ("T>C", 1)]
      = dkeys [(("T>A" : String), (1 : Nat)), ("T>C", 1)] ∧
    ∀ pr ∈ List.zip
        ((dkeys [(("T>A" : String), (1 : Nat)), ("T>C", 1)]).zip
          [NpFloat.val (1 / 2), NpFloat.val (1 / 2)])
        ((dkeys [(("T>A" : String), (1 : Nat)), ("T>C", 1)]).zip
          [NpFloat.val (1 / 2), NpFloat.val (1 / 2)]),
      pr.1.1 = pr.2.1 := by
  have hagg : aggregate [⟨"1", "T>C"⟩, ⟨"1", "T>A"⟩] false = [("T>C", 1), ("T>A", 1)] := by
    decide
  have hloop : chi2Loop (fun _ => (1 : ℚ)) [("T>C", 1), ("T>A", 1)] ["T>C", "T>A"]
      [("T>C", 1), ("T>A", 1)]
      = Except.ok ([(("T>C" : String), (1 : ℚ)), ("T>A", 1)], [("T>C", 1), ("T>A", 1)]) := rfl
  have hsort : sortedDict [("T>C", 1), ("T>A", 1)] = [("T>A", 1), ("T>C", 1)] := by decide
  have hfdr : fdrcorrection fdr_alpha [(1 : ℚ), 1] = [false, false] := by
    norm_num [fdrcorrection, fdr_alpha, enumIdx, List.insertionSort, List.orderedInsert,
      idxpLE, List.range_succ]
  have hfrac : fractions [("T>A", 1), ("T>C", 1)]
      = [NpFloat.val (1 / 2), NpFloat.val (1 / 2)] := by
    norm_num [fractions, normalizedPairs, dsum, npdiv]
  have hrun : plot_mutation_spectrum (fun _ => (1 : ℚ)) [⟨"1", "T>C"⟩, ⟨"1", "T>A"⟩]
      [⟨"1", "T>C"⟩, ⟨"1", "T>A"⟩] false
      = Except.ok
          { nA := 2, nB := 2,
            tests := [(("T>C" : String), (1 : ℚ)), ("T>A", 1)],
            signif := [false, false],
            aSorted := [("T>A", 1), ("T>C", 1)],
            bSorted := [("T>A", 1), ("T>C", 1)],
            aFrac := [NpFloat.val (1 / 2), NpFloat.val (1 / 2)],
            bFrac := [NpFloat.val (1 / 2), NpFloat.val (1 / 2)] } := by
    rw [plot_mutation_spectrum, hagg, assembleSpectrum]
    rw [show dkeys [(("T>C" : String), (1 : Nat)), ("T>A", 1)] = ["T>C", "T>A"] from rfl]
    simp only [hloop, hsort, hfrac]
    rw [show List.map Prod.snd [(("T>C" : String), (1 : ℚ)), ("T>A", 1)] = [(1 : ℚ), 1] from rfl]
    rw [hfdr]
    rfl
  have hrender : renderBars
      { nA := 2, nB := 2,
        tests := [(("T>C" : String), (1 : ℚ)), ("T>A", 1)],
        signif := [false, false],
        aSorted := [("T>A", 1), ("T>C", 1)],
        bSorted := [("T>A", 1), ("T>C", 1)],
        aFrac := [NpFloat.val (1 / 2), NpFloat.val (1 / 2)],
        bFrac := [NpFloat.val (1 / 2), NpFloat.val (1 / 2)] }
      = Except.ok (List.zip
          ((dkeys [(("T>A" : String), (1 : Nat)), ("T>C", 1)]).zip
            [NpFloat.val (1 / 2), NpFloat.val (1 / 2)])
          ((dkeys [(("T>A" : String), (1 : Nat)), ("T>C", 1)]).zip
            [NpFloat.val (1 / 2), NpFloat.val (1 / 2)])) := rfl
  exact bars_align_when_render_succeeds (fun _ => (1 : ℚ))
    [⟨"1", "T>C"⟩, ⟨"1", "T>A"⟩] [⟨"1", "T>C"⟩, ⟨"1", "T>A"⟩] false _ _ hrun hrender

theorem foldl_aggStepSt (indels : Bool) (l : List MutationRecord) (d : Dict) (st : Store) :
    l.foldl (aggStepSt indels) (d, st) = (l.foldl (aggStepD indels) d, st) := by
  induction l generalizing d with
  | nil => rfl
  | cons r rest ih =>
      rw [List.foldl_cons, List.foldl_cons]
      by_cases h1 : r.chrom = "X" <;> by_cases h2 : r.mutType = "indel" <;>
        cases indels <;> simp [aggStepSt, aggStepD, h1, h2, ih]

/-- C9.  One invocation never writes the input record sequences: the
store that carries them is returned unchanged, the produced result is
exactly the pure function of the two inputs, and running the invocation
again on the returned store reproduces the identical result (no state is
carried across calls). -/
theorem plotRun_pure_and_repeatable (sf : ℚ → ℚ) (indels : Bool) (s : Store) :
    (plotRun sf indels s).2 = s ∧
    (plotRun sf indels s).1 = plot_mutation_spectrum sf s.df1 s.df2 indels ∧
    plotRun sf indels ((plotRun sf indels s).2) = plotRun sf indels s := by
  have h1 := foldl_aggStepSt indels s.df1 [] s
  have h2 := foldl_aggStepSt indels s.df2 [] s
  have hframe : (plotRun sf indels s).2 = s := by
    rw [plotRun]
    simp only [h1, h2]
  refine ⟨hframe, ?_, ?_⟩
  · rw [plotRun]
    simp only [h1, h2]
    rw [plot_mutation_spectrum, aggregate, aggregate]
  · rw [hframe]
